import Mathlib

/-!
Shallow embedding of the Three Up Three Down rules engine
(src/austingames/threeupthreedown/cards.py and game.py).

Conventions of the embedding:
* A Python `Card` stores `value: Union[int, str]`, where the only string
  values ever constructed are "C", "C+1", "C+2".  We model the value as an
  inductive with a numeric constructor and one constructor per clear rank.
* Python lists become `List`; in-place mutation becomes functions returning
  the new value.  Index arguments submitted by the client are modeled as
  naturals (a Python negative index is never produced by the claims under
  study; a natural index that is out of range raises IndexError in Python,
  modeled by an explicit crash outcome / `Option`).
* `random.shuffle` is modeled by quantifying over an arbitrary permutation
  of the unshuffled deck.
* The asynchronous prompt/receive loop of `Cards.choose` is modeled by a
  pure function of the pile and the list of successive index submissions.
-/

namespace ThreeUpThreeDown

/-- Card values: `num n` embeds an integer card, `C`, `Cp1`, `Cp2` embed the
strings "C", "C+1", "C+2" (the clear cards). -/
inductive Card where
  | num (n : Int)
  | C
  | Cp1
  | Cp2
deriving DecidableEq, Repr, Inhabited

/-- `Card.is_clear`: `isinstance(self.value, str)`. -/
def Card.is_clear : Card → Bool
  | .num _ => false
  | _ => true

/-- `Card.extra_turns`: "C+2" gives 2, "C+1" gives 1, anything else 0. -/
def Card.extra_turns : Card → Nat
  | .Cp2 => 2
  | .Cp1 => 1
  | _ => 0

/-- Rank of the string value in Python string order ("C" < "C+1" < "C+2");
only used when both sides are clear cards. -/
def Card.strVal : Card → Nat
  | .C => 0
  | .Cp1 => 1
  | .Cp2 => 2
  | .num _ => 0

/-- `Card.__ge__`: compare values; comparing an int with a str raises
TypeError, in which case the result is `self.is_clear`. -/
def Card.ge : Card → Card → Bool
  | .num a, .num b => a ≥ b
  | .num _, _ => false
  | _, .num _ => true
  | a, b => a.strVal ≥ b.strVal

/-- `Card.__lt__`: compare values; comparing an int with a str raises
TypeError, in which case the result is `other.is_clear`. -/
def Card.lt : Card → Card → Bool
  | .num a, .num b => a < b
  | .num _, _ => true
  | _, .num _ => false
  | a, b => a.strVal < b.strVal

/-- `Card.__eq__`: `self.value == other.value` (an int never equals a str in
Python). -/
def Card.eq : Card → Card → Bool
  | .num a, .num b => a = b
  | .C, .C => true
  | .Cp1, .Cp1 => true
  | .Cp2, .Cp2 => true
  | _, _ => false

/-- `len(set(cards)) == 1`: the list is nonempty and all members are equal
(Card hashes by value, so Python set identity coincides with `Card.eq`). -/
def allEqualOne : List Card → Bool
  | [] => false
  | c :: cs => cs.all (fun x => Card.eq x c)

/-- `new[-1].is_clear` for a nonempty list, `False` on the empty list (where
Python would raise IndexError; unreachable in the game). -/
def lastIsClear (xs : List Card) : Bool :=
  match xs.getLast? with
  | some c => c.is_clear
  | none => false

/-- `len(new) >= 3 and len(set(new[-3:])) == 1`. -/
def lastThreeSame (xs : List Card) : Bool :=
  decide (3 ≤ xs.length) && allEqualOne (xs.drop (xs.length - 3))

/-- `Discard.__iadd__`: append the played cards; if the new top card is
clear, or the last three cards of the combined pile are all equal, the
whole pile is replaced by a fresh empty pile. -/
def Discard.iadd (d cs : List Card) : List Card :=
  let new := d ++ cs
  if lastIsClear new || lastThreeSame new then [] else new

/-- The deck composition dictionary `SMALL` (insertion order preserved). -/
def SMALL : List (Card × Nat) :=
  [(.num 1, 3), (.num 2, 3), (.num 3, 3), (.num 4, 3), (.num 5, 3),
   (.num 6, 3), (.num 7, 3), (.num 8, 3), (.num 9, 3), (.num 10, 3),
   (.C, 3), (.Cp1, 2), (.Cp2, 1)]

/-- `Deck.__init__` before the shuffle: one card per copy listed in `SMALL`.
`random.shuffle` is modeled as an arbitrary permutation of this list. -/
def Deck.init : List Card :=
  SMALL.flatMap (fun vn => List.replicate vn.2 vn.1)

/-- `Deck.deal(n)`: pop `n` cards off the end of the deck; the dealt cards
come out in pop order.  `none` when the deck runs out (Python IndexError;
the game never deals more than the deck holds). -/
def Deck.deal (l : List Card) : Nat → Option (List Card × List Card)
  | 0 => some ([], l)
  | n + 1 =>
    match l.getLast? with
    | none => none
    | some c =>
      match Deck.deal l.dropLast n with
      | none => none
      | some (ds, rest) => some (c :: ds, rest)

/-- The clearing condition of the spec, stated structurally: the combined
pile ends in a clear card, or ends in three equal cards. -/
def SpecClear (xs : List Card) : Prop :=
  (∃ c, xs.getLast? = some c ∧ c.is_clear = true) ∨
  (∃ ys a, xs = ys ++ [a, a, a])

/-- A pile of cards.  This models the Python `Cards` list together with the
`hidden_indexes` attribute of its `ThreeDown` subclass; a plain pile (a
hand, a three-up pile, the deck, the discard) simply carries an empty
`hidden_indexes`, which every operation below leaves empty. -/
structure Pile where
  cards : List Card
  hidden_indexes : List Nat
deriving DecidableEq, Repr, Inhabited

/-- `ThreeDown.pop(index)`: renumber the hidden indexes (drop the popped
index, shift the higher ones down by one) and remove the card.  `none`
models the IndexError Python raises on an out-of-range index. -/
def ThreeDown.pop (p : Pile) (index : Nat) : Option (Card × Pile) :=
  let hidden := (p.hidden_indexes.filter (fun ix => ix ≠ index)).map
      (fun ix => if ix < index then ix else ix - 1)
  if index < p.cards.length then
    some (p.cards.getD index (Card.num 0), ⟨p.cards.eraseIdx index, hidden⟩)
  else
    none

/-- `cards = [self[ix] for ix in indexes]`; `none` models the IndexError on
an out-of-range index. -/
def getMany (cs : List Card) : List Nat → Option (List Card)
  | [] => some []
  | i :: is =>
    if i < cs.length then
      match getMany cs is with
      | some rest => some (cs.getD i (Card.num 0) :: rest)
      | none => none
    else
      none

/-- Insert into a descending-sorted list, keeping it descending. -/
def insertDesc (i : Nat) : List Nat → List Nat
  | [] => [i]
  | j :: js => if j ≤ i then i :: j :: js else j :: insertDesc i js

/-- `sorted(indexes, reverse=True)`. -/
def sortDesc : List Nat → List Nat
  | [] => []
  | i :: is => insertDesc i (sortDesc is)

/-- `cards[0]` where the caller has ensured the list is nonempty. -/
def headCard (cs : List Card) : Card := cs.headD (Card.num 0)

/-- Sequential `self.pop(ix)` calls of the generator
`(self.pop(ix) for ix in ...)`: thread the pile through, collecting the
popped cards; `none` in the first component models an IndexError partway
through. -/
def popSeq : Pile → List Nat → Option (List Card) × Pile
  | p, [] => (some [], p)
  | p, ix :: rest =>
    match ThreeDown.pop p ix with
    | none => (none, p)
    | some (c, p₁) =>
      match popSeq p₁ rest with
      | (none, p₂) => (none, p₂)
      | (some cs, p₂) => (some (c :: cs), p₂)

/-- Outcome of processing one submission inside the `while True` loop of
`Cards.choose`. -/
inductive StepOutcome where
  | chosen (cs : List Card)
  | pickUp
  | reprompt
  | crash
deriving DecidableEq, Repr

/-- `Cards(self.pop(ix) for ix in sorted(indexes, reverse=True))`:
the final, successful line of `Cards.choose`. -/
def popChosen (p : Pile) (ixs : List Nat) : StepOutcome × Pile :=
  match popSeq p (sortDesc ixs) with
  | (some cs, p') => (.chosen cs, p')
  | (none, p') => (.crash, p')

/-- One iteration of the `while True` body of `Cards.choose` on a submitted
list of indexes: run the assertions in source order; a failed assertion is
caught and re-prompts (`reprompt`); an uncaught IndexError is `crash`; the
three-down too-low path reveals the first chosen index and returns the
must-pick-up-discard outcome; otherwise pop the chosen cards. -/
def chooseStep (p : Pile) (min_num max_num : Nat) (playing_faceup : Bool)
    (min_card : Option Card) (ixs : List Nat) : StepOutcome × Pile :=
  if ixs.length < min_num then (.reprompt, p)
  else if max_num < ixs.length then (.reprompt, p)
  else
    match getMany p.cards ixs with
    | none => (.crash, p)
    | some cards =>
      if playing_faceup && !allEqualOne cards then (.reprompt, p)
      else if playing_faceup && decide (1 < cards.length)
          && decide ((headCard cards).extra_turns ≠ 0) then (.reprompt, p)
      else
        match min_card with
        | none => popChosen p ixs
        | some m =>
          if playing_faceup then
            if Card.ge (headCard cards) m then popChosen p ixs
            else (.reprompt, p)
          else
            match cards, ixs with
            | c :: _, i :: _ =>
              if Card.lt c m then
                (.pickUp,
                 ⟨p.cards, p.hidden_indexes.filter (fun ix => ix ≠ i)⟩)
              else popChosen p ixs
            | _, _ => (.crash, p)

/-- Result of a whole `Cards.choose` call. -/
inductive ChooseResult where
  | chosen (cs : List Card) (p : Pile)
  | pickUp (p : Pile)
  | crash
  | waiting (p : Pile)
deriving DecidableEq, Repr

/-- The `while True` loop of `Cards.choose` over successive submissions;
`waiting` models the call still suspended once the modeled submissions run
out. -/
def chooseLoop (min_num max_num : Nat) (playing_faceup : Bool)
    (min_card : Option Card) : Pile → List (List Nat) → ChooseResult
  | p, [] => .waiting p
  | p, ixs :: rest =>
    match chooseStep p min_num max_num playing_faceup min_card ixs with
    | (.chosen cs, p') => .chosen cs p'
    | (.pickUp, p') => .pickUp p'
    | (.crash, _) => .crash
    | (.reprompt, p') => chooseLoop min_num max_num playing_faceup min_card p' rest

/-- `Cards.choose`: the early exit when a face-up pile has nothing playable,
then the interactive loop. -/
def choose (p : Pile) (min_num max_num : Nat) (playing_faceup : Bool)
    (min_card : Option Card) (subs : List (List Nat)) : ChooseResult :=
  match min_card with
  | some m =>
    if playing_faceup && p.cards.all (fun c => Card.lt c m) then .pickUp p
    else chooseLoop min_num max_num playing_faceup min_card p subs
  | none => chooseLoop min_num max_num playing_faceup min_card p subs

/-- Insert by `Card.__lt__` into a sorted list (Python `list.sort` uses only
`__lt__`; the resulting ascending-sorted list agrees with it up to the order
of equal-valued cards). -/
def insertCard (c : Card) : List Card → List Card
  | [] => [c]
  | d :: ds => if Card.lt d c then d :: insertCard c ds else c :: d :: ds

/-- `self.hand.sort()`. -/
def pySort (cs : List Card) : List Card := cs.foldr insertCard []

/-- One player: hand, three-up pile, three-down pile (the two face-up piles
carry no hidden indexes). -/
structure PlayerState where
  hand : List Card
  three_up : List Card
  three_down : Pile
deriving DecidableEq, Repr, Inhabited

/-- `Player.add_to_hand`: extend the hand; sort it when it grows past 6. -/
def addToHand (pl : PlayerState) (cs : List Card) : PlayerState :=
  let hand := pl.hand ++ cs
  ⟨if 6 < hand.length then pySort hand else hand, pl.three_up, pl.three_down⟩

/-- The pile a play came from, for the turn log. -/
inductive Loc where
  | hand
  | threeUp
  | threeDown
deriving DecidableEq, Repr

/-- Result of `Player.take_turn`: cards played from some pile, the forced
pick-up of the discard, or a call that crashed / is still suspended. -/
inductive TurnResult where
  | played (cs : List Card) (pl : PlayerState) (loc : Loc)
  | pickUp (pl : PlayerState)
  | stuck
deriving DecidableEq, Repr

/-- `Player.take_turn`: choose from the hand if nonempty, else from the
three-up pile if nonempty, else a single blind card from the three-down
pile. -/
def takeTurn (pl : PlayerState) (top : Option Card) (subs : List (List Nat)) :
    TurnResult :=
  if pl.hand.isEmpty = false then
    match choose ⟨pl.hand, []⟩ 1 pl.hand.length true top subs with
    | .chosen cs p => .played cs ⟨p.cards, pl.three_up, pl.three_down⟩ .hand
    | .pickUp p => .pickUp ⟨p.cards, pl.three_up, pl.three_down⟩
    | .crash => .stuck
    | .waiting _ => .stuck
  else if pl.three_up.isEmpty = false then
    match choose ⟨pl.three_up, []⟩ 1 pl.three_up.length true top subs with
    | .chosen cs p => .played cs ⟨pl.hand, p.cards, pl.three_down⟩ .threeUp
    | .pickUp p => .pickUp ⟨pl.hand, p.cards, pl.three_down⟩
    | .crash => .stuck
    | .waiting _ => .stuck
  else
    match choose pl.three_down 1 1 false top subs with
    | .chosen cs p => .played cs ⟨pl.hand, pl.three_up, p⟩ .threeDown
    | .pickUp p => .pickUp ⟨pl.hand, pl.three_up, p⟩
    | .crash => .stuck
    | .waiting _ => .stuck

/-- One entry of the turn log (each constructor stands for the exact message
string the code formats: a play and whether it announced the discard being
cleared, a pick-up, or the win announcement). -/
inductive LogEntry where
  | played (player : Nat) (cs : List Card) (loc : Loc) (cleared : Bool)
  | pickedUp (player : Nat)
  | won (player : Nat) (cs : List Card)
deriving DecidableEq, Repr

/-- `TurnLog.appendleft` on a deque with `maxlen=10`. -/
def appendLog (e : LogEntry) (l : List LogEntry) : List LogEntry :=
  (e :: l).take 10

/-- The game state: the deck, the players in join order (a player is named
by its position), the discard pile and the turn log. -/
structure GameState where
  deck : List Card
  players : List PlayerState
  discard : List Card
  turn_log : List LogEntry
deriving DecidableEq, Repr

/-- One iteration of the `while turns_left:` body of
`Game.everyone_take_a_turn` for player `pi`, given the submissions of that
player and the current `turns_left`.  Returns the new game state, the new
`turns_left` and whether the player just won; `none` when the player index
is invalid or the choose call crashed / stayed suspended. -/
def turnIteration (g : GameState) (pi : Nat) (subs : List (List Nat))
    (turns_left : Nat) : Option (GameState × Nat × Bool) :=
  match g.players.get? pi with
  | none => none
  | some pl =>
    match takeTurn pl g.discard.getLast? subs with
    | .played cs pl' _loc =>
      if pl'.three_down.cards.isEmpty then
        some (⟨g.deck, g.players.set pi pl', g.discard,
               appendLog (.won pi cs) g.turn_log⟩, turns_left - 1, true)
      else
        let discard' := Discard.iadd g.discard cs
        match Deck.deal g.deck (min (3 - pl'.hand.length) g.deck.length) with
        | none => none
        | some (dealt, deck') =>
          some (⟨deck', g.players.set pi (addToHand pl' dealt), discard',
                 appendLog (.played pi cs _loc discard'.isEmpty) g.turn_log⟩,
                turns_left - 1 + (headCard cs).extra_turns, false)
    | .pickUp pl' =>
      some (⟨g.deck, g.players.set pi (addToHand pl' g.discard), [],
             appendLog (.pickedUp pi) g.turn_log⟩, turns_left - 1, false)
    | .stuck => none

/-- The `while turns_left:` loop for one player: run successive iterations,
each with its own submissions, until `turns_left` reaches 0, the player
wins (the method returns at once), or the modeled inputs run out (`none`).
The returned numeral counts the iterations executed. -/
def runTurns (g : GameState) (pi : Nat) :
    List (List (List Nat)) → Nat → Option (GameState × Nat × Bool)
  | _, 0 => some (g, 0, false)
  | [], _ + 1 => none
  | subs :: rest, tl + 1 =>
    match turnIteration g pi subs (tl + 1) with
    | none => none
    | some (g', tl', won) =>
      if won then some (g', 1, true)
      else
        match runTurns g' pi rest tl' with
        | none => none
        | some (g'', n, w) => some (g'', n + 1, w)

/-- Cards a player holds across all three piles. -/
def playerCount (pl : PlayerState) : Nat :=
  pl.hand.length + pl.three_up.length + pl.three_down.cards.length

/-- Total cards in play: deck, every pile of every player, and the discard
pile. -/
def totalCards (g : GameState) : Nat :=
  g.deck.length + (g.players.map playerCount).sum + g.discard.length

/-! ### Basic lemmas about cards and the discard pile -/

theorem Card.eq_iff (x y : Card) : Card.eq x y = true ↔ x = y := by
  cases x <;> cases y <;> simp [Card.eq]

theorem Card.eq_self (x : Card) : Card.eq x x = true := by
  simp [Card.eq_iff]

theorem lastIsClear_iff (xs : List Card) :
    lastIsClear xs = true ↔ ∃ c, xs.getLast? = some c ∧ c.is_clear = true := by
  unfold lastIsClear
  cases h : xs.getLast? with
  | none => simp
  | some c => simp

theorem lastThreeSame_iff (xs : List Card) :
    lastThreeSame xs = true ↔ ∃ ys a, xs = ys ++ [a, a, a] := by
  constructor
  · intro h
    unfold lastThreeSame at h
    rw [Bool.and_eq_true, decide_eq_true_eq] at h
    obtain ⟨h3, hall⟩ := h
    have hsplit := List.take_append_drop (xs.length - 3) xs
    have hlen : (xs.drop (xs.length - 3)).length = 3 := by
      rw [List.length_drop]; omega
    obtain ⟨a, b, c, habc⟩ : ∃ a b c, xs.drop (xs.length - 3) = [a, b, c] := by
      match hzs : xs.drop (xs.length - 3) with
      | [a, b, c] => exact ⟨a, b, c, rfl⟩
      | [] | [_] | [_, _] | _ :: _ :: _ :: _ :: _ => rw [hzs] at hlen; simp at hlen
    rw [habc] at hall
    simp only [allEqualOne, List.all_cons, List.all_nil, Bool.and_eq_true,
      Card.eq_iff] at hall
    obtain ⟨hb, hc, -⟩ := hall
    refine ⟨xs.take (xs.length - 3), a, ?_⟩
    conv_lhs => rw [← hsplit]
    rw [habc, hb, hc]
  · rintro ⟨ys, a, rfl⟩
    unfold lastThreeSame
    rw [Bool.and_eq_true, decide_eq_true_eq]
    constructor
    · simp
    · have hlen : (ys ++ [a, a, a]).length - 3 = ys.length := by simp
      rw [hlen, List.drop_left]
      simp [allEqualOne, Card.eq_self]

theorem iadd_cond_iff (xs : List Card) :
    (lastIsClear xs || lastThreeSame xs) = true ↔ SpecClear xs := by
  rw [Bool.or_eq_true, lastIsClear_iff, lastThreeSame_iff]
  rfl

theorem iadd_cases (d cs : List Card) :
    (Discard.iadd d cs = [] ∧ SpecClear (d ++ cs)) ∨
    (Discard.iadd d cs = d ++ cs ∧ ¬ SpecClear (d ++ cs)) := by
  unfold Discard.iadd
  by_cases h : (lastIsClear (d ++ cs) || lastThreeSame (d ++ cs)) = true
  · exact Or.inl ⟨by simp [h], (iadd_cond_iff _).mp h⟩
  · refine Or.inr ⟨by simp [h], fun hs => h ((iadd_cond_iff _).mpr hs)⟩

/-! ### Claim theorems: cards and the discard pile -/

/-- C3: appending a nonempty batch of cards to the discard pile empties it
exactly when the combined sequence ends in a clear card or in three equal
cards; otherwise the result is exactly the concatenation. -/
theorem discard_append_clears_iff (d cs : List Card) (h : cs ≠ []) :
    (Discard.iadd d cs = [] ↔ SpecClear (d ++ cs)) ∧
    (¬ SpecClear (d ++ cs) → Discard.iadd d cs = d ++ cs) := by
  rcases iadd_cases d cs with ⟨he, hc⟩ | ⟨he, hc⟩
  · exact ⟨⟨fun _ => hc, fun _ => he⟩, fun hn => absurd hc hn⟩
  · refine ⟨⟨fun hnil => ?_, fun hs => absurd hs hc⟩, fun _ => he⟩
    rw [he] at hnil
    exact absurd (List.append_eq_nil.mp hnil).2 h

/-- Witness for C3, at the inputs the spec itself names: `[5,5,5]` onto an
empty discard clears, `[5,5,6]` does not, and a batch ending in a clear
card always clears. -/
theorem discard_append_clears_iff_witness :
    Discard.iadd [] [Card.num 5, Card.num 5, Card.num 5] = [] ∧
    Discard.iadd [] [Card.num 5, Card.num 5, Card.num 6]
      = [Card.num 5, Card.num 5, Card.num 6] ∧
    Discard.iadd [Card.num 9, Card.num 4] [Card.C] = [] := by
  refine ⟨?_, ?_, ?_⟩
  · exact (discard_append_clears_iff [] [Card.num 5, Card.num 5, Card.num 5]
      (by decide)).1.mpr ((iadd_cond_iff _).mp (by decide))
  · exact (discard_append_clears_iff [] [Card.num 5, Card.num 5, Card.num 6]
      (by decide)).2
      (fun hs => absurd ((iadd_cond_iff _).mpr hs) (by decide))
  · exact (discard_append_clears_iff [Card.num 9, Card.num 4] [Card.C]
      (by decide)).1.mpr ((iadd_cond_iff _).mp (by decide))

/-- C10: a discard pile produced by the append operation is either empty or
fails the clearing condition (its top card is not clear and it does not end
in three equal cards). -/
theorem discard_append_invariant (d cs : List Card) :
    Discard.iadd d cs = [] ∨ ¬ SpecClear (Discard.iadd d cs) := by
  rcases iadd_cases d cs with ⟨he, -⟩ | ⟨he, hc⟩
  · exact Or.inl he
  · exact Or.inr (he ▸ hc)

/-- C2 counterexample: the deck built by the code has two "C+1" cards and
36 cards in total, not three "C+1" cards and 33 cards as claimed. -/
theorem deck_composition_counterexample :
    Deck.init.count Card.Cp1 = 2 ∧ Deck.init.length = 36 ∧
    ¬ (Deck.init.count Card.Cp1 = 3 ∧ Deck.init.length = 33) := by
  refine ⟨by decide, by decide, ?_⟩
  rintro ⟨h, -⟩
  have : Deck.init.count Card.Cp1 = 2 := by decide
  omega

/-- C2 amended: a freshly constructed deck (any permutation of the fixed
composition, modeling the shuffle) holds three of each numeric rank 1-10,
three "C", two "C+1" and one "C+2" - 36 cards in total - and is a
permutation of that fixed multiset. -/
theorem deck_composition (d : List Card) (h : List.Perm d Deck.init) :
    d.length = 36 ∧
    (∀ k : Int, 1 ≤ k → k ≤ 10 → d.count (Card.num k) = 3) ∧
    d.count Card.C = 3 ∧ d.count Card.Cp1 = 2 ∧ d.count Card.Cp2 = 1 ∧
    List.Perm d Deck.init := by
  refine ⟨by rw [h.length_eq]; decide, ?_, ?_, ?_, ?_, h⟩
  · intro k h1 h10
    rw [h.count_eq]
    interval_cases k <;> decide
  · rw [h.count_eq]; decide
  · rw [h.count_eq]; decide
  · rw [h.count_eq]; decide

/-- Witness for C2 amended, at the identity shuffle. -/
theorem deck_composition_witness :
    Deck.init.length = 36 ∧ Deck.init.count Card.Cp1 = 2 :=
  ⟨(deck_composition Deck.init (List.Perm.refl _)).1,
   (deck_composition Deck.init (List.Perm.refl _)).2.2.2.1⟩

/-- C8: numeric cards compare by integer order, every clear card is
greater-or-equal to every numeric card, every numeric card is less than
every clear card, and card equality is value equality. -/
theorem card_ordering :
    (∀ a b : Int, Card.lt (Card.num a) (Card.num b) = decide (a < b) ∧
       Card.ge (Card.num a) (Card.num b) = decide (a ≥ b)) ∧
    (∀ c : Card, c.is_clear = true →
       ∀ n : Int, Card.ge c (Card.num n) = true ∧
         Card.lt (Card.num n) c = true) ∧
    (∀ x y : Card, Card.eq x y = true ↔ x = y) := by
  refine ⟨fun a b => ⟨rfl, rfl⟩, fun c hc n => ?_, Card.eq_iff⟩
  cases c with
  | num m => simp [Card.is_clear] at hc
  | C => exact ⟨rfl, rfl⟩
  | Cp1 => exact ⟨rfl, rfl⟩
  | Cp2 => exact ⟨rfl, rfl⟩

/-- Witness for C8: the instances the spec names, Card(5) < Card(7) and
Card("C") >= Card(10). -/
theorem card_ordering_witness :
    Card.lt (Card.num 5) (Card.num 7) = decide ((5 : Int) < 7) ∧
    Card.ge Card.C (Card.num 10) = true :=
  ⟨(card_ordering.1 5 7).1, (card_ordering.2.1 Card.C rfl 10).1⟩

/-! ### Lemmas about removal by index -/

theorem getD_eraseIdx_of_lt {α : Type} :
    ∀ (l : List α) (i j : Nat) (d : α), j < i →
      (l.eraseIdx i).getD j d = l.getD j d
  | [], _, _, _, _ => rfl
  | _ :: _, 0, j, _, h => absurd h (Nat.not_lt_zero j)
  | _ :: xs, i + 1, 0, d, _ => by
    rw [List.eraseIdx_cons_succ, List.getD_cons_zero, List.getD_cons_zero]
  | _ :: xs, i + 1, j + 1, d, h => by
    rw [List.eraseIdx_cons_succ, List.getD_cons_succ, List.getD_cons_succ]
    exact getD_eraseIdx_of_lt xs i j d (by omega)

theorem getD_eraseIdx_of_ge {α : Type} :
    ∀ (l : List α) (i j : Nat) (d : α), i ≤ j →
      (l.eraseIdx i).getD j d = l.getD (j + 1) d
  | [], i, j, d, _ => by simp
  | _ :: xs, 0, j, d, _ => by
    rw [List.eraseIdx_cons_zero, List.getD_cons_succ]
  | _ :: xs, i + 1, j + 1, d, h => by
    rw [List.eraseIdx_cons_succ, List.getD_cons_succ, List.getD_cons_succ]
    exact getD_eraseIdx_of_ge xs i j d (by omega)

theorem hidden_after_pop (hid : List Nat) (i j : Nat) :
    (j ∈ (hid.filter (fun ix => ix ≠ i)).map
        (fun ix => if ix < i then ix else ix - 1)) ↔
    ((j < i ∧ j ∈ hid) ∨ (i ≤ j ∧ j + 1 ∈ hid)) := by
  simp only [List.mem_map, List.mem_filter, decide_eq_true_eq]
  constructor
  · rintro ⟨ix, ⟨hmem, hne⟩, hshift⟩
    by_cases hlt : ix < i
    · rw [if_pos hlt] at hshift
      subst hshift
      exact Or.inl ⟨hlt, hmem⟩
    · rw [if_neg hlt] at hshift
      have hix : ix = j + 1 := by omega
      subst hix
      exact Or.inr ⟨by omega, hmem⟩
  · rintro (⟨hji, hmem⟩ | ⟨hij, hmem⟩)
    · exact ⟨j, ⟨hmem, by omega⟩, if_pos hji⟩
    · refine ⟨j + 1, ⟨hmem, by omega⟩, ?_⟩
      rw [if_neg (by omega)]
      omega

/-! ### Claim theorems: ThreeDown.pop -/

/-- C6: popping a valid position removes exactly that card (later cards
shift down one place), drops the popped index from the hidden-index set,
decrements every hidden index above it and keeps every hidden index below
it, so the face-down status of each remaining card is preserved. -/
theorem three_down_pop (t : Pile) (i : Nat) (h : i < t.cards.length) :
    ∃ t', ThreeDown.pop t i = some (t.cards.getD i (Card.num 0), t') ∧
      t'.cards.length + 1 = t.cards.length ∧
      (∀ j, j < i → t'.cards.getD j (Card.num 0) = t.cards.getD j (Card.num 0)) ∧
      (∀ j, i ≤ j → t'.cards.getD j (Card.num 0) = t.cards.getD (j + 1) (Card.num 0)) ∧
      (∀ j, j < i → (j ∈ t'.hidden_indexes ↔ j ∈ t.hidden_indexes)) ∧
      (∀ j, i ≤ j → (j ∈ t'.hidden_indexes ↔ j + 1 ∈ t.hidden_indexes)) := by
  refine ⟨⟨t.cards.eraseIdx i,
    (t.hidden_indexes.filter (fun ix => ix ≠ i)).map
      (fun ix => if ix < i then ix else ix - 1)⟩, ?_, ?_, ?_, ?_, ?_, ?_⟩
  · unfold ThreeDown.pop
    rw [if_pos h]
  · exact List.length_eraseIdx_add_one h
  · exact fun j hj => getD_eraseIdx_of_lt t.cards i j (Card.num 0) hj
  · exact fun j hj => getD_eraseIdx_of_ge t.cards i j (Card.num 0) hj
  · intro j hj
    rw [hidden_after_pop]
    constructor
    · rintro (⟨-, hm⟩ | ⟨hij, -⟩)
      · exact hm
      · omega
    · exact fun hm => Or.inl ⟨hj, hm⟩
  · intro j hj
    rw [hidden_after_pop]
    constructor
    · rintro (⟨hji, -⟩ | ⟨-, hm⟩)
      · omega
      · exact hm
    · exact fun hm => Or.inr ⟨hj, hm⟩

/-- Witness for C6, at the spec example: popping position 1 of a 3-card
pile with hidden positions 0,1,2 leaves hidden positions 0 and 1 and not
2 on the remaining 2-card pile. -/
theorem three_down_pop_witness :
    ∃ t', ThreeDown.pop ⟨[Card.num 1, Card.num 2, Card.num 3], [0, 1, 2]⟩ 1
        = some (Card.num 2, t') ∧
      0 ∈ t'.hidden_indexes ∧ 1 ∈ t'.hidden_indexes ∧ ¬ 2 ∈ t'.hidden_indexes := by
  obtain ⟨t', hp, hlen, hlo, hhi, hmlo, hmhi⟩ :=
    three_down_pop ⟨[Card.num 1, Card.num 2, Card.num 3], [0, 1, 2]⟩ 1 (by decide)
  refine ⟨t', hp, ?_, ?_, ?_⟩
  · exact (hmlo 0 (by decide)).mpr (by decide)
  · exact (hmhi 1 (by decide)).mpr (by decide)
  · exact fun h2 => absurd ((hmhi 2 (by decide)).mp h2) (by decide)

/-! ### Claim theorems: the choose validation loop -/

theorem popChosen_ne_reprompt (p : Pile) (ixs : List Nat) :
    (popChosen p ixs).1 ≠ StepOutcome.reprompt := by
  unfold popChosen
  rcases hps : popSeq p (sortDesc ixs) with ⟨r, p'⟩
  cases r <;> simp

theorem chooseStep_reprompt_eq (p : Pile) (mn mx : Nat) (fu : Bool)
    (mc : Option Card) (ixs : List Nat) :
    (chooseStep p mn mx fu mc ixs).1 = StepOutcome.reprompt →
    (chooseStep p mn mx fu mc ixs).2 = p := by
  unfold chooseStep
  repeat' split
  all_goals intro h
  all_goals first
    | rfl
    | exact absurd h (popChosen_ne_reprompt _ _)
    | simp at h

/-- C9: a submission that fails validation (the loop body re-prompts)
leaves the pile exactly as it was: same cards, same hidden-index set. -/
theorem choose_no_mutation_on_invalid (p : Pile) (mn mx : Nat) (fu : Bool)
    (mc : Option Card) (ixs : List Nat)
    (h : (chooseStep p mn mx fu mc ixs).1 = StepOutcome.reprompt) :
    (chooseStep p mn mx fu mc ixs).2 = p :=
  chooseStep_reprompt_eq p mn mx fu mc ixs h

/-- Witness for C9: submitting one index when two are required re-prompts
and the pile is unchanged. -/
theorem choose_no_mutation_on_invalid_witness :
    (chooseStep ⟨[Card.num 1, Card.num 2], []⟩ 2 2 true none [0]).2
      = ⟨[Card.num 1, Card.num 2], []⟩ :=
  choose_no_mutation_on_invalid ⟨[Card.num 1, Card.num 2], []⟩ 2 2 true none
    [0] (by decide)

/-- C4: the three-down play of a single in-range position whose card is
below the minimum card returns the must-pick-up-discard outcome, removes
the chosen position from the hidden-index set, and leaves the cards of the
pile untouched. -/
theorem three_down_reveal (p : Pile) (i : Nat) (m : Card)
    (hi : i < p.cards.length)
    (hlt : Card.lt (p.cards.getD i (Card.num 0)) m = true) :
    choose p 1 1 false (some m) [[i]]
      = ChooseResult.pickUp
          ⟨p.cards, p.hidden_indexes.filter (fun ix => ix ≠ i)⟩ := by
  have hlt2 : p.cards[i].lt m = true := by
    rw [List.getD_eq_getElem p.cards (Card.num 0) hi] at hlt
    exact hlt
  simp [choose, chooseLoop, chooseStep, getMany, hi, hlt2]

/-- Witness for C4, at the spec example: pile [Card(3)] with position 0
hidden, minimum card Card(8), selecting index 0. -/
theorem three_down_reveal_witness :
    choose ⟨[Card.num 3], [0]⟩ 1 1 false (some (Card.num 8)) [[0]]
      = ChooseResult.pickUp ⟨[Card.num 3], []⟩ :=
  (three_down_reveal ⟨[Card.num 3], [0]⟩ 0 (Card.num 8) (by decide)
    (by decide)).trans (by decide)

/-! ### The success path of choose: which cards leave the pile, in which
order -/

/-- Decrement a set of position indexes past a removed head element. -/
def decIdx (ixs : List Nat) : List Nat :=
  ixs.filterMap (fun j => if j = 0 then none else some (j - 1))

/-- The cards at the positions not listed in `ixs`, in their original
order. -/
def keepNot (ixs : List Nat) : List Card → List Card
  | [] => []
  | c :: cs =>
    if 0 ∈ ixs then keepNot (decIdx ixs) cs
    else c :: keepNot (decIdx ixs) cs

theorem mem_decIdx (ixs : List Nat) (j : Nat) :
    j ∈ decIdx ixs ↔ j + 1 ∈ ixs := by
  simp only [decIdx, List.mem_filterMap]
  constructor
  · rintro ⟨a, ha, hfa⟩
    by_cases h0 : a = 0
    · subst h0; simp at hfa
    · rw [if_neg h0] at hfa
      have : a = j + 1 := by
        have := Option.some.inj hfa
        omega
      exact this ▸ ha
  · intro h
    exact ⟨j + 1, h, by simp⟩

theorem keepNot_nil : ∀ l : List Card, keepNot [] l = l
  | [] => rfl
  | c :: cs => by
    unfold keepNot
    rw [if_neg (List.not_mem_nil 0)]
    have : decIdx [] = [] := rfl
    rw [this, keepNot_nil cs]

theorem keepNot_congr :
    ∀ (l : List Card) (as bs : List Nat), (∀ j, j ∈ as ↔ j ∈ bs) →
      keepNot as l = keepNot bs l
  | [], _, _, _ => rfl
  | c :: cs, as, bs, h => by
    unfold keepNot
    have hdec : ∀ j, j ∈ decIdx as ↔ j ∈ decIdx bs := fun j => by
      rw [mem_decIdx, mem_decIdx, h]
    by_cases hb : 0 ∈ bs
    · rw [if_pos ((h 0).mpr hb), if_pos hb, keepNot_congr cs _ _ hdec]
    · rw [if_neg (fun hc => hb ((h 0).mp hc)), if_neg hb,
        keepNot_congr cs _ _ hdec]

theorem keepNot_eraseIdx :
    ∀ (l : List Card) (i : Nat) (ixs : List Nat), (∀ j ∈ ixs, j < i) →
      keepNot ixs (l.eraseIdx i) = keepNot (i :: ixs) l
  | [], i, ixs, _ => rfl
  | c :: cs, 0, ixs, h => by
    have hnil : ixs = [] := by
      cases ixs with
      | nil => rfl
      | cons x xs => exact absurd (h x (by simp)) (by omega)
    subst hnil
    rw [List.eraseIdx_cons_zero, keepNot_nil]
    show _ = keepNot [0] (c :: cs)
    unfold keepNot
    rw [if_pos (by simp)]
    have : decIdx [0] = [] := rfl
    rw [this, keepNot_nil]
  | c :: cs, i + 1, ixs, h => by
    rw [List.eraseIdx_cons_succ]
    have hdec : ∀ j ∈ decIdx ixs, j < i := by
      intro j hj
      have := h (j + 1) ((mem_decIdx ixs j).mp hj)
      omega
    have hd : decIdx ((i + 1) :: ixs) = i :: decIdx ixs := by
      simp [decIdx, List.filterMap_cons]
    have h0 : (0 ∈ ((i + 1) :: ixs)) ↔ (0 ∈ ixs) := by
      simp
    show keepNot ixs (c :: cs.eraseIdx i) = keepNot ((i + 1) :: ixs) (c :: cs)
    unfold keepNot
    rw [hd]
    by_cases hz : 0 ∈ ixs
    · rw [if_pos hz, if_pos (h0.mpr hz), keepNot_eraseIdx cs i (decIdx ixs) hdec]
    · rw [if_neg hz, if_neg (fun hc => hz (h0.mp hc)),
        keepNot_eraseIdx cs i (decIdx ixs) hdec]

theorem insertDesc_perm (i : Nat) (l : List Nat) :
    List.Perm (insertDesc i l) (i :: l) := by
  induction l with
  | nil => exact List.Perm.refl _
  | cons j js ih =>
    unfold insertDesc
    by_cases h : j ≤ i
    · rw [if_pos h]
    · rw [if_neg h]
      exact (ih.cons j).trans (List.Perm.swap i j js)

theorem sortDesc_perm (l : List Nat) : List.Perm (sortDesc l) l := by
  induction l with
  | nil => exact List.Perm.refl _
  | cons i is ih => exact (insertDesc_perm i (sortDesc is)).trans (ih.cons i)

theorem insertDesc_pairwise (i : Nat) (l : List Nat)
    (h : List.Pairwise (fun a b => b ≤ a) l) :
    List.Pairwise (fun a b => b ≤ a) (insertDesc i l) := by
  induction l with
  | nil => simp [insertDesc]
  | cons j js ih =>
    rw [List.pairwise_cons] at h
    obtain ⟨hj, hjs⟩ := h
    unfold insertDesc
    by_cases hji : j ≤ i
    · rw [if_pos hji]
      refine List.Pairwise.cons ?_ (List.Pairwise.cons hj hjs)
      intro x hx
      rcases List.mem_cons.mp hx with rfl | hx
      · exact hji
      · exact le_trans (hj x hx) hji
    · rw [if_neg hji]
      refine List.Pairwise.cons ?_ (ih hjs)
      intro x hx
      have hx' := (insertDesc_perm i js).mem_iff.mp hx
      rcases List.mem_cons.mp hx' with rfl | hx'
      · omega
      · exact hj x hx'

theorem sortDesc_pairwise (l : List Nat) :
    List.Pairwise (fun a b => b ≤ a) (sortDesc l) := by
  induction l with
  | nil => simp [sortDesc]
  | cons i is ih => exact insertDesc_pairwise i (sortDesc is) ih

theorem sortDesc_pairwise_gt (l : List Nat) (h : l.Nodup) :
    List.Pairwise (fun a b => b < a) (sortDesc l) := by
  have h1 := sortDesc_pairwise l
  have h2 : (sortDesc l).Nodup := (sortDesc_perm l).nodup_iff.mpr h
  exact (h1.and h2).imp (fun hab => by
    obtain ⟨hle, hne⟩ := hab
    omega)

theorem popSeq_sorted :
    ∀ (ixs : List Nat) (cards : List Card) (hid : List Nat),
      List.Pairwise (fun a b => b < a) ixs →
      (∀ j ∈ ixs, j < cards.length) →
      ∃ p', popSeq ⟨cards, hid⟩ ixs
          = (some (ixs.map (fun j => cards.getD j (Card.num 0))), p')
        ∧ p'.cards = keepNot ixs cards := by
  intro ixs
  induction ixs with
  | nil =>
    intro cards hid _ _
    exact ⟨⟨cards, hid⟩, rfl, (keepNot_nil cards).symm⟩
  | cons i rest ih =>
    intro cards hid hpw hrange
    have hi : i < cards.length := hrange i (by simp)
    have hrest : ∀ j ∈ rest, j < i :=
      fun j hj => (List.pairwise_cons.mp hpw).1 j hj
    have hlen := List.length_eraseIdx_add_one hi
    have hrange' : ∀ j ∈ rest, j < (cards.eraseIdx i).length := by
      intro j hj
      have := hrest j hj
      omega
    obtain ⟨p', hrec, hcards⟩ :=
      ih (cards.eraseIdx i)
        ((hid.filter (fun ix => ix ≠ i)).map
          (fun ix => if ix < i then ix else ix - 1))
        (List.pairwise_cons.mp hpw).2 hrange'
    have hpop : ThreeDown.pop ⟨cards, hid⟩ i
        = some (cards.getD i (Card.num 0),
            ⟨cards.eraseIdx i,
             (hid.filter (fun ix => ix ≠ i)).map
               (fun ix => if ix < i then ix else ix - 1)⟩) := by
      unfold ThreeDown.pop
      rw [if_pos hi]
    have hmap : rest.map (fun j => (cards.eraseIdx i).getD j (Card.num 0))
        = rest.map (fun j => cards.getD j (Card.num 0)) :=
      List.map_congr_left
        (fun j hj => getD_eraseIdx_of_lt cards i j (Card.num 0) (hrest j hj))
    refine ⟨p', ?_, ?_⟩
    · simp only [popSeq, hpop, hrec, hmap, List.map_cons]
    · rw [hcards, keepNot_eraseIdx cards i rest hrest]

theorem popChosen_chosen (p : Pile) (ixs : List Nat) (cs : List Card)
    (p' : Pile) (h : popChosen p ixs = (StepOutcome.chosen cs, p')) :
    popSeq p (sortDesc ixs) = (some cs, p') := by
  unfold popChosen at h
  rcases hps : popSeq p (sortDesc ixs) with ⟨r, p₂⟩
  rw [hps] at h
  cases r with
  | some cs₂ =>
    simp only [Prod.mk.injEq, StepOutcome.chosen.injEq] at h
    rw [h.1, h.2]
  | none => simp at h

theorem chooseStep_chosen (p : Pile) (mn mx : Nat) (fu : Bool)
    (mc : Option Card) (ixs : List Nat) (cs : List Card) (p' : Pile)
    (h : chooseStep p mn mx fu mc ixs = (StepOutcome.chosen cs, p')) :
    popSeq p (sortDesc ixs) = (some cs, p') := by
  unfold chooseStep at h
  repeat' split at h
  all_goals first
    | exact popChosen_chosen _ _ _ _ h
    | simp at h

/-- C5 counterexample: a successful choose (here the three-card setup move,
`min_num=max_num=3`, not face-up, no minimum card) of indexes 0,1,2 on the
pile [1,2,3] returns the cards in descending index order [3,2,1], not in
the claimed ascending selection order [1,2,3]. -/
theorem choose_return_order_counterexample :
    choose ⟨[Card.num 1, Card.num 2, Card.num 3], []⟩ 3 3 false none
        [[0, 1, 2]]
      = ChooseResult.chosen [Card.num 3, Card.num 2, Card.num 1] ⟨[], []⟩ ∧
    [Card.num 3, Card.num 2, Card.num 1]
      ≠ [Card.num 1, Card.num 2, Card.num 3] := by
  constructor
  · decide
  · decide

/-- C5 amended: on a successful choose of distinct in-range indexes,
exactly the cards at the chosen positions are removed (the remaining cards
keep their relative order), and the removed cards are returned in
descending index order - the order of the descending pop sequence, not
reversed. -/
theorem choose_success_pops (p : Pile) (mn mx : Nat) (fu : Bool)
    (mc : Option Card) (ixs : List Nat) (cs : List Card) (p' : Pile)
    (hnd : ixs.Nodup) (hrange : ∀ j ∈ ixs, j < p.cards.length)
    (h : chooseStep p mn mx fu mc ixs = (StepOutcome.chosen cs, p')) :
    cs = (sortDesc ixs).map (fun j => p.cards.getD j (Card.num 0)) ∧
    p'.cards = keepNot ixs p.cards := by
  obtain ⟨cards, hid⟩ := p
  have hps := chooseStep_chosen _ mn mx fu mc ixs cs p' h
  have hrange' : ∀ j ∈ sortDesc ixs, j < cards.length := fun j hj =>
    hrange j ((sortDesc_perm ixs).mem_iff.mp hj)
  obtain ⟨p₂, hpop, hcards⟩ := popSeq_sorted (sortDesc ixs) cards hid
    (sortDesc_pairwise_gt ixs hnd) hrange'
  rw [hps] at hpop
  have h1 : cs = (sortDesc ixs).map (fun j => cards.getD j (Card.num 0)) :=
    Option.some.inj (congrArg Prod.fst hpop)
  have h2 : p' = p₂ := congrArg Prod.snd hpop
  refine ⟨h1, ?_⟩
  rw [h2, hcards]
  exact keepNot_congr cards (sortDesc ixs) ixs
    (fun j => (sortDesc_perm ixs).mem_iff)

/-- Witness for C5 amended, at the counterexample input. -/
theorem choose_success_pops_witness :
    [Card.num 3, Card.num 2, Card.num 1]
      = (sortDesc [0, 1, 2]).map
          (fun j => ([Card.num 1, Card.num 2, Card.num 3] : List Card).getD j
            (Card.num 0)) ∧
    ([] : List Card) = keepNot [0, 1, 2] [Card.num 1, Card.num 2, Card.num 3] :=
  choose_success_pops ⟨[Card.num 1, Card.num 2, Card.num 3], []⟩ 3 3 false
    none [0, 1, 2] [Card.num 3, Card.num 2, Card.num 1] ⟨[], []⟩
    (by decide) (by decide) (by decide)

/-! ### Card accounting through choose -/

theorem pop_some_length (p : Pile) (i : Nat) (c : Card) (p' : Pile)
    (h : ThreeDown.pop p i = some (c, p')) :
    p'.cards.length + 1 = p.cards.length := by
  simp only [ThreeDown.pop] at h
  by_cases hi : i < p.cards.length
  · rw [if_pos hi] at h
    have h2 : p' = ⟨p.cards.eraseIdx i, _⟩ :=
      (congrArg Prod.snd (Option.some.inj h)).symm
    rw [h2]
    exact List.length_eraseIdx_add_one hi
  · rw [if_neg hi] at h
    exact absurd h (by simp)

theorem popSeq_length :
    ∀ (ixs : List Nat) (p : Pile) (cs : List Card) (p' : Pile),
      popSeq p ixs = (some cs, p') →
      p'.cards.length + cs.length = p.cards.length := by
  intro ixs
  induction ixs with
  | nil =>
    intro p cs p' h
    simp only [popSeq, Prod.mk.injEq, Option.some.injEq] at h
    obtain ⟨h1, h2⟩ := h
    subst h1
    subst h2
    simp
  | cons ix rest ih =>
    intro p cs p' h
    unfold popSeq at h
    split at h
    next => simp at h
    next c p₁ heq =>
      split at h
      next p₂ heq₂ => simp at h
      next cs₂ p₂ heq₂ =>
        simp only [Prod.mk.injEq, Option.some.injEq] at h
        obtain ⟨h1, h2⟩ := h
        subst h1
        subst h2
        have ha := ih p₁ cs₂ p₂ heq₂
        have hb := pop_some_length p ix c p₁ heq
        simp only [List.length_cons]
        omega

theorem chooseStep_chosen_length (p : Pile) (mn mx : Nat) (fu : Bool)
    (mc : Option Card) (ixs : List Nat) (cs : List Card) (p' : Pile)
    (h : chooseStep p mn mx fu mc ixs = (StepOutcome.chosen cs, p')) :
    p'.cards.length + cs.length = p.cards.length :=
  popSeq_length (sortDesc ixs) p cs p'
    (chooseStep_chosen p mn mx fu mc ixs cs p' h)

theorem popChosen_ne_pickUp (p : Pile) (ixs : List Nat) :
    (popChosen p ixs).1 ≠ StepOutcome.pickUp := by
  unfold popChosen
  rcases hps : popSeq p (sortDesc ixs) with ⟨r, p'⟩
  cases r <;> simp

theorem chooseStep_pickUp_cards (p : Pile) (mn mx : Nat) (fu : Bool)
    (mc : Option Card) (ixs : List Nat) (p' : Pile)
    (h : chooseStep p mn mx fu mc ixs = (StepOutcome.pickUp, p')) :
    p'.cards = p.cards := by
  have h1 : (chooseStep p mn mx fu mc ixs).1 = StepOutcome.pickUp := by
    rw [h]
  have h2 : (chooseStep p mn mx fu mc ixs).2 = p' := by
    rw [h]
  rw [← h2]
  clear h h2
  revert h1
  unfold chooseStep
  repeat' split
  all_goals intro h1
  all_goals first
    | rfl
    | exact absurd h1 (popChosen_ne_pickUp _ _)
    | simp at h1

theorem chooseLoop_chosen_length (mn mx : Nat) (fu : Bool)
    (mc : Option Card) :
    ∀ (subs : List (List Nat)) (p : Pile) (cs : List Card) (p' : Pile),
      chooseLoop mn mx fu mc p subs = ChooseResult.chosen cs p' →
      p'.cards.length + cs.length = p.cards.length := by
  intro subs
  induction subs with
  | nil => intro p cs p' h; simp [chooseLoop] at h
  | cons ixs rest ih =>
    intro p cs p' h
    unfold chooseLoop at h
    rcases hstep : chooseStep p mn mx fu mc ixs with ⟨o, p₁⟩
    rw [hstep] at h
    cases o with
    | chosen cs₂ =>
      simp only [ChooseResult.chosen.injEq] at h
      obtain ⟨h1, h2⟩ := h
      subst h1
      subst h2
      exact chooseStep_chosen_length p mn mx fu mc ixs _ _ hstep
    | pickUp => simp at h
    | crash => simp at h
    | reprompt =>
      have hp₁ : p₁ = p := by
        have hr := chooseStep_reprompt_eq p mn mx fu mc ixs (by rw [hstep])
        rw [hstep] at hr
        exact hr
      rw [hp₁] at h
      exact ih p cs p' h

theorem chooseLoop_pickUp_cards (mn mx : Nat) (fu : Bool)
    (mc : Option Card) :
    ∀ (subs : List (List Nat)) (p : Pile) (p' : Pile),
      chooseLoop mn mx fu mc p subs = ChooseResult.pickUp p' →
      p'.cards = p.cards := by
  intro subs
  induction subs with
  | nil => intro p p' h; simp [chooseLoop] at h
  | cons ixs rest ih =>
    intro p p' h
    unfold chooseLoop at h
    rcases hstep : chooseStep p mn mx fu mc ixs with ⟨o, p₁⟩
    rw [hstep] at h
    cases o with
    | chosen cs₂ => simp at h
    | pickUp =>
      simp only [ChooseResult.pickUp.injEq] at h
      subst h
      exact chooseStep_pickUp_cards p mn mx fu mc ixs p₁ hstep
    | crash => simp at h
    | reprompt =>
      have hp₁ : p₁ = p := by
        have hr := chooseStep_reprompt_eq p mn mx fu mc ixs (by rw [hstep])
        rw [hstep] at hr
        exact hr
      rw [hp₁] at h
      exact ih p p' h

theorem choose_chosen_length (p : Pile) (mn mx : Nat) (fu : Bool)
    (mc : Option Card) (subs : List (List Nat)) (cs : List Card) (p' : Pile)
    (h : choose p mn mx fu mc subs = ChooseResult.chosen cs p') :
    p'.cards.length + cs.length = p.cards.length := by
  cases mc with
  | none =>
    simp only [choose] at h
    exact chooseLoop_chosen_length mn mx fu none subs p cs p' h
  | some m =>
    simp only [choose] at h
    by_cases hsc : (fu && p.cards.all (fun c => Card.lt c m)) = true
    · rw [if_pos hsc] at h; simp at h
    · rw [if_neg hsc] at h
      exact chooseLoop_chosen_length mn mx fu (some m) subs p cs p' h

theorem choose_pickUp_cards (p : Pile) (mn mx : Nat) (fu : Bool)
    (mc : Option Card) (subs : List (List Nat)) (p' : Pile)
    (h : choose p mn mx fu mc subs = ChooseResult.pickUp p') :
    p'.cards = p.cards := by
  cases mc with
  | none =>
    simp only [choose] at h
    exact chooseLoop_pickUp_cards mn mx fu none subs p p' h
  | some m =>
    simp only [choose] at h
    by_cases hsc : (fu && p.cards.all (fun c => Card.lt c m)) = true
    · rw [if_pos hsc] at h
      simp only [ChooseResult.pickUp.injEq] at h
      rw [← h]
    · rw [if_neg hsc] at h
      exact chooseLoop_pickUp_cards mn mx fu (some m) subs p p' h

/-! ### Card accounting through a player turn -/

theorem insertCard_length (c : Card) :
    ∀ l : List Card, (insertCard c l).length = l.length + 1
  | [] => rfl
  | d :: ds => by
    unfold insertCard
    by_cases h : Card.lt d c = true
    · rw [if_pos h]
      simp [insertCard_length c ds]
    · rw [if_neg h]
      simp

theorem pySort_length : ∀ l : List Card, (pySort l).length = l.length
  | [] => rfl
  | c :: cs => by
    show (insertCard c (pySort cs)).length = (c :: cs).length
    rw [insertCard_length, pySort_length cs]
    simp

theorem addToHand_count (pl : PlayerState) (cs : List Card) :
    playerCount (addToHand pl cs) = playerCount pl + cs.length := by
  simp only [addToHand, playerCount]
  by_cases h : 6 < (pl.hand ++ cs).length
  · rw [if_pos h, pySort_length]
    simp only [List.length_append]
    omega
  · rw [if_neg h]
    simp only [List.length_append]
    omega

theorem takeTurn_played_count (pl : PlayerState) (top : Option Card)
    (subs : List (List Nat)) (cs : List Card) (pl' : PlayerState) (loc : Loc)
    (h : takeTurn pl top subs = TurnResult.played cs pl' loc) :
    playerCount pl' + cs.length = playerCount pl := by
  unfold takeTurn at h
  by_cases h1 : pl.hand.isEmpty = false
  · rw [if_pos h1] at h
    split at h
    next cs₂ p hc =>
      injection h with e1 e2 e3
      subst e1
      subst e2
      have hl : p.cards.length + cs₂.length = pl.hand.length :=
        choose_chosen_length ⟨pl.hand, []⟩ 1 pl.hand.length true top subs
          cs₂ p hc
      simp only [playerCount]
      omega
    all_goals simp at h
  · rw [if_neg h1] at h
    by_cases h2 : pl.three_up.isEmpty = false
    · rw [if_pos h2] at h
      split at h
      next cs₂ p hc =>
        injection h with e1 e2 e3
        subst e1
        subst e2
        have hl : p.cards.length + cs₂.length = pl.three_up.length :=
          choose_chosen_length ⟨pl.three_up, []⟩ 1 pl.three_up.length true top
            subs cs₂ p hc
        simp only [playerCount]
        omega
      all_goals simp at h
    · rw [if_neg h2] at h
      split at h
      next cs₂ p hc =>
        injection h with e1 e2 e3
        subst e1
        subst e2
        have hl : p.cards.length + cs₂.length = pl.three_down.cards.length :=
          choose_chosen_length pl.three_down 1 1 false top subs cs₂ p hc
        simp only [playerCount]
        omega
      all_goals simp at h

theorem takeTurn_pickUp_count (pl : PlayerState) (top : Option Card)
    (subs : List (List Nat)) (pl' : PlayerState)
    (h : takeTurn pl top subs = TurnResult.pickUp pl') :
    playerCount pl' = playerCount pl := by
  unfold takeTurn at h
  by_cases h1 : pl.hand.isEmpty = false
  · rw [if_pos h1] at h
    split at h
    next => exact absurd h (by simp)
    next p hc =>
      injection h with e1
      subst e1
      have hl : p.cards = pl.hand :=
        choose_pickUp_cards ⟨pl.hand, []⟩ 1 pl.hand.length true top subs p hc
      simp only [playerCount, hl]
    next => exact absurd h (by simp)
    next => exact absurd h (by simp)
  · rw [if_neg h1] at h
    by_cases h2 : pl.three_up.isEmpty = false
    · rw [if_pos h2] at h
      split at h
      next => exact absurd h (by simp)
      next p hc =>
        injection h with e1
        subst e1
        have hl : p.cards = pl.three_up :=
          choose_pickUp_cards ⟨pl.three_up, []⟩ 1 pl.three_up.length true top
            subs p hc
        simp only [playerCount, hl]
      next => exact absurd h (by simp)
      next => exact absurd h (by simp)
    · rw [if_neg h2] at h
      split at h
      next => exact absurd h (by simp)
      next p hc =>
        injection h with e1
        subst e1
        have hl : p.cards = pl.three_down.cards :=
          choose_pickUp_cards pl.three_down 1 1 false top subs p hc
        simp only [playerCount, hl]
      next => exact absurd h (by simp)
      next => exact absurd h (by simp)

theorem deal_length :
    ∀ (n : Nat) (l : List Card), n ≤ l.length →
      ∃ ds rest, Deck.deal l n = some (ds, rest) ∧ ds.length = n ∧
        rest.length + n = l.length := by
  intro n
  induction n with
  | zero => intro l _; exact ⟨[], l, rfl, rfl, by omega⟩
  | succ n ih =>
    intro l hn
    have hne : l ≠ [] := by
      intro he
      subst he
      simp at hn
    obtain ⟨c, hc⟩ : ∃ c, l.getLast? = some c := by
      cases hl : l.getLast? with
      | none => exact absurd (List.getLast?_eq_none_iff.mp hl) hne
      | some c => exact ⟨c, rfl⟩
    have hdl : l.dropLast.length = l.length - 1 := List.length_dropLast l
    obtain ⟨ds, rest, hd, hdlen, hrlen⟩ := ih l.dropLast (by omega)
    rw [hdl] at hrlen
    refine ⟨c :: ds, rest, ?_, by simp [hdlen], by omega⟩
    unfold Deck.deal
    rw [hc, hd]

theorem sum_map_set :
    ∀ (l : List PlayerState) (i : Nat) (pl x : PlayerState),
      l.get? i = some pl →
      ((l.set i x).map playerCount).sum + playerCount pl
        = (l.map playerCount).sum + playerCount x := by
  intro l
  induction l with
  | nil => intro i pl x h; simp at h
  | cons y ys ih =>
    intro i pl x h
    cases i with
    | zero =>
      rw [List.get?_cons_zero] at h
      have hy : y = pl := Option.some.inj h
      subst hy
      simp only [List.set, List.map_cons, List.sum_cons]
      omega
    | succ i =>
      rw [List.get?_cons_succ] at h
      have := ih i pl x h
      simp only [List.set, List.map_cons, List.sum_cons]
      omega

/-! ### The three outcomes of one iteration of the turn loop -/

theorem turnIteration_of_pickUp (g : GameState) (pi : Nat)
    (subs : List (List Nat)) (tl : Nat) (pl pl' : PlayerState)
    (hpl : g.players.get? pi = some pl)
    (htt : takeTurn pl g.discard.getLast? subs = TurnResult.pickUp pl') :
    turnIteration g pi subs tl
      = some (⟨g.deck, g.players.set pi (addToHand pl' g.discard), [],
          appendLog (LogEntry.pickedUp pi) g.turn_log⟩, tl - 1, false) := by
  simp only [turnIteration, hpl, htt]

theorem turnIteration_of_win (g : GameState) (pi : Nat)
    (subs : List (List Nat)) (tl : Nat) (pl pl' : PlayerState)
    (cs : List Card) (loc : Loc)
    (hpl : g.players.get? pi = some pl)
    (htt : takeTurn pl g.discard.getLast? subs = TurnResult.played cs pl' loc)
    (hwin : pl'.three_down.cards.isEmpty = true) :
    turnIteration g pi subs tl
      = some (⟨g.deck, g.players.set pi pl', g.discard,
          appendLog (LogEntry.won pi cs) g.turn_log⟩, tl - 1, true) := by
  simp only [turnIteration, hpl, htt, hwin, if_true]

theorem turnIteration_of_play (g : GameState) (pi : Nat)
    (subs : List (List Nat)) (tl : Nat) (pl pl' : PlayerState)
    (cs : List Card) (loc : Loc) (ds deck' : List Card)
    (hpl : g.players.get? pi = some pl)
    (htt : takeTurn pl g.discard.getLast? subs = TurnResult.played cs pl' loc)
    (hwin : pl'.three_down.cards.isEmpty = false)
    (hdeal : Deck.deal g.deck (min (3 - pl'.hand.length) g.deck.length)
      = some (ds, deck')) :
    turnIteration g pi subs tl
      = some (⟨deck', g.players.set pi (addToHand pl' ds),
          Discard.iadd g.discard cs,
          appendLog
            (LogEntry.played pi cs loc (Discard.iadd g.discard cs).isEmpty)
            g.turn_log⟩,
         tl - 1 + (headCard cs).extra_turns, false) := by
  simp only [turnIteration, hpl, htt, hwin, Bool.false_eq_true, if_false,
    hdeal]

theorem turnIteration_of_none_player (g : GameState) (pi : Nat)
    (subs : List (List Nat)) (tl : Nat)
    (hpl : g.players.get? pi = none) :
    turnIteration g pi subs tl = none := by
  simp only [turnIteration, hpl]

theorem turnIteration_of_stuck (g : GameState) (pi : Nat)
    (subs : List (List Nat)) (tl : Nat) (pl : PlayerState)
    (hpl : g.players.get? pi = some pl)
    (htt : takeTurn pl g.discard.getLast? subs = TurnResult.stuck) :
    turnIteration g pi subs tl = none := by
  simp only [turnIteration, hpl, htt]

/-! ### Claim theorems: conservation of cards through the turn loop -/

/-- A one-player state about to play the clear card "C" onto a nonempty
discard pile. -/
def gClear : GameState :=
  ⟨[], [⟨[Card.C], [], ⟨[Card.num 1], [0]⟩⟩], [Card.num 5], []⟩

/-- The state after that play: the discard pile cleared, and the "C" and
the buried 5 left play. -/
def gClearStep : GameState :=
  ⟨[], [⟨[], [], ⟨[Card.num 1], [0]⟩⟩], [],
   [LogEntry.played 0 [Card.C] Loc.hand true]⟩

/-- C1 counterexample: the turn-loop step in which the single player plays
the clear card "C" onto the discard [5] drops the total card count from 3
to 1 - the cleared discard pile leaves play, so the step does not preserve
the total. -/
theorem turn_conservation_counterexample :
    turnIteration gClear 0 [[0]] 1 = some (gClearStep, 0, false) ∧
    totalCards gClear = 3 ∧ totalCards gClearStep = 1 := by
  refine ⟨by decide, by decide, by decide⟩

/-- C1 amended: one iteration of the turn loop preserves the total number
of cards in play (deck, all player piles, discard) in the pick-up case and
in the non-clearing play case; when the play clears the discard, the old
discard pile and the played cards leave play; on the winning play the
played cards leave play.  The logged entry of the iteration tells which
case occurred. -/
theorem turn_step_conservation (g : GameState) (pi : Nat)
    (subs : List (List Nat)) (tl : Nat) (g' : GameState) (tl' : Nat)
    (won : Bool)
    (h : turnIteration g pi subs tl = some (g', tl', won)) :
    ∃ e rest, g'.turn_log = e :: rest ∧
      (∀ i, e = LogEntry.pickedUp i → totalCards g' = totalCards g) ∧
      (∀ i cs loc, e = LogEntry.played i cs loc false →
        totalCards g' = totalCards g) ∧
      (∀ i cs loc, e = LogEntry.played i cs loc true →
        totalCards g' + g.discard.length + cs.length = totalCards g) ∧
      (∀ i cs, e = LogEntry.won i cs →
        totalCards g' + cs.length = totalCards g) := by
  cases hpl : g.players.get? pi with
  | none =>
    rw [turnIteration_of_none_player g pi subs tl hpl] at h
    exact absurd h (by simp)
  | some pl =>
    cases htt : takeTurn pl g.discard.getLast? subs with
    | stuck =>
      rw [turnIteration_of_stuck g pi subs tl pl hpl htt] at h
      exact absurd h (by simp)
    | pickUp pl' =>
      rw [turnIteration_of_pickUp g pi subs tl pl pl' hpl htt] at h
      have hg : (⟨g.deck, g.players.set pi (addToHand pl' g.discard), [],
          appendLog (LogEntry.pickedUp pi) g.turn_log⟩ : GameState) = g' :=
        congrArg Prod.fst (Option.some.inj h)
      subst hg
      refine ⟨LogEntry.pickedUp pi, g.turn_log.take 9, rfl, ?_, ?_, ?_, ?_⟩
      · intro i _
        have hsum := sum_map_set g.players pi pl (addToHand pl' g.discard) hpl
        have hadd := addToHand_count pl' g.discard
        have hcnt := takeTurn_pickUp_count pl g.discard.getLast? subs pl' htt
        simp only [totalCards, List.length_nil]
        omega
      · intro i cs loc heq
        exact absurd heq (by simp)
      · intro i cs loc heq
        exact absurd heq (by simp)
      · intro i cs heq
        exact absurd heq (by simp)
    | played cs₀ pl' loc₀ =>
      cases hwin : pl'.three_down.cards.isEmpty with
      | true =>
        rw [turnIteration_of_win g pi subs tl pl pl' cs₀ loc₀ hpl htt hwin]
          at h
        have hg : (⟨g.deck, g.players.set pi pl', g.discard,
            appendLog (LogEntry.won pi cs₀) g.turn_log⟩ : GameState) = g' :=
          congrArg Prod.fst (Option.some.inj h)
        subst hg
        refine ⟨LogEntry.won pi cs₀, g.turn_log.take 9, rfl, ?_, ?_, ?_, ?_⟩
        · intro i heq
          exact absurd heq (by simp)
        · intro i cs loc heq
          exact absurd heq (by simp)
        · intro i cs loc heq
          exact absurd heq (by simp)
        · intro i cs heq
          injection heq with e1 e2
          subst e2
          have hsum := sum_map_set g.players pi pl pl' hpl
          have hcnt :=
            takeTurn_played_count pl g.discard.getLast? subs cs₀ pl' loc₀ htt
          simp only [totalCards]
          omega
      | false =>
        obtain ⟨ds, deck', hdeal, hdslen, hrest⟩ :=
          deal_length (min (3 - pl'.hand.length) g.deck.length) g.deck
            (Nat.min_le_right _ _)
        rw [turnIteration_of_play g pi subs tl pl pl' cs₀ loc₀ ds deck' hpl
          htt hwin hdeal] at h
        have hg : (⟨deck', g.players.set pi (addToHand pl' ds),
            Discard.iadd g.discard cs₀,
            appendLog
              (LogEntry.played pi cs₀ loc₀ (Discard.iadd g.discard cs₀).isEmpty)
              g.turn_log⟩ : GameState) = g' :=
          congrArg Prod.fst (Option.some.inj h)
        subst hg
        have hsum := sum_map_set g.players pi pl (addToHand pl' ds) hpl
        have hadd := addToHand_count pl' ds
        have hcnt :=
          takeTurn_played_count pl g.discard.getLast? subs cs₀ pl' loc₀ htt
        refine ⟨LogEntry.played pi cs₀ loc₀ (Discard.iadd g.discard cs₀).isEmpty,
          g.turn_log.take 9, rfl, ?_, ?_, ?_, ?_⟩
        · intro i heq
          exact absurd heq (by simp)
        · intro i cs loc heq
          injection heq with e1 e2 e3 e4
          subst e2
          have hne : Discard.iadd g.discard cs₀ ≠ [] := by
            intro hnil
            rw [hnil] at e4
            simp at e4
          rcases iadd_cases g.discard cs₀ with ⟨he, -⟩ | ⟨he, -⟩
          · exact absurd he hne
          · simp only [totalCards, he, List.length_append]
            omega
        · intro i cs loc heq
          injection heq with e1 e2 e3 e4
          subst e2
          have hnil : Discard.iadd g.discard cs₀ = [] :=
            List.isEmpty_iff.mp e4
          simp only [totalCards, hnil, List.length_nil]
          omega
        · intro i cs heq
          exact absurd heq (by simp)

/-- Witness for C1 amended, at the clearing play of `gClear`: the step
loses exactly the discard pile (one card) plus the played card. -/
theorem turn_step_conservation_witness :
    totalCards gClearStep + gClear.discard.length + 1 = totalCards gClear := by
  obtain ⟨e, rest, hlog, hpick, hplayF, hplayT, hwon⟩ :=
    turn_step_conservation gClear 0 [[0]] 1 gClearStep 0 false (by decide)
  have hlog2 : gClearStep.turn_log
      = [LogEntry.played 0 [Card.C] Loc.hand true] := by decide
  rw [hlog2] at hlog
  have he : e = LogEntry.played 0 [Card.C] Loc.hand true :=
    ((List.cons.inj hlog).1).symm
  have := hplayT 0 [Card.C] Loc.hand he
  simpa using this

/-! ### Claim theorems: extra turns -/

/-- A one-player state whose hand is ["C+2", 5, 5]. -/
def gSeq : GameState :=
  ⟨[], [⟨[Card.Cp2, Card.num 5, Card.num 5], [], ⟨[Card.num 1], [0]⟩⟩],
   [], []⟩

/-- `gSeq` after the first play (the "C+2"): two turns remain. -/
def gSeqMid : GameState :=
  ⟨[], [⟨[Card.num 5, Card.num 5], [], ⟨[Card.num 1], [0]⟩⟩], [],
   [LogEntry.played 0 [Card.Cp2] Loc.hand true]⟩

/-- `gSeq` after all three plays of the same player. -/
def gSeqEnd : GameState :=
  ⟨[], [⟨[], [], ⟨[Card.num 1], [0]⟩⟩], [Card.num 5, Card.num 5],
   [LogEntry.played 0 [Card.num 5] Loc.hand false,
    LogEntry.played 0 [Card.num 5] Loc.hand false,
    LogEntry.played 0 [Card.Cp2] Loc.hand true]⟩

/-- C7: after a successful non-winning play the remaining turn count
becomes the old count minus the consumed turn plus the extra turns of the
first played card ("C+2" grants 2, "C+1" grants 1, anything else 0); in
particular a player who plays a single "C+2" takes exactly two additional
consecutive turns - the while loop runs three iterations in total and is
still owed a third iteration if only two are supplied. -/
theorem extra_turns_stacking :
    (∀ (g : GameState) (pi : Nat) (subs : List (List Nat)) (tl : Nat)
        (g' : GameState) (tl' : Nat) (e : LogEntry) (rest : List LogEntry),
      turnIteration g pi subs tl = some (g', tl', false) →
      g'.turn_log = e :: rest →
      ∀ i cs loc cl, e = LogEntry.played i cs loc cl →
        tl' = tl - 1 + (headCard cs).extra_turns) ∧
    Card.Cp2.extra_turns = 2 ∧ Card.Cp1.extra_turns = 1 ∧
    Card.C.extra_turns = 0 ∧ (∀ n : Int, (Card.num n).extra_turns = 0) ∧
    runTurns gSeq 0 [[[0]], [[0]], [[0]]] 1 = some (gSeqEnd, 3, false) ∧
    runTurns gSeq 0 [[[0]], [[0]]] 1 = none := by
  refine ⟨?_, rfl, rfl, rfl, fun n => rfl, by decide, by decide⟩
  intro g pi subs tl g' tl' e rest h hlog i cs loc cl heq
  cases hpl : g.players.get? pi with
  | none =>
    rw [turnIteration_of_none_player g pi subs tl hpl] at h
    exact absurd h (by simp)
  | some pl =>
    cases htt : takeTurn pl g.discard.getLast? subs with
    | stuck =>
      rw [turnIteration_of_stuck g pi subs tl pl hpl htt] at h
      exact absurd h (by simp)
    | pickUp pl' =>
      rw [turnIteration_of_pickUp g pi subs tl pl pl' hpl htt] at h
      have hinj := Option.some.inj h
      have hg : (⟨g.deck, g.players.set pi (addToHand pl' g.discard), [],
          appendLog (LogEntry.pickedUp pi) g.turn_log⟩ : GameState) = g' :=
        congrArg Prod.fst hinj
      rw [← hg] at hlog
      have he : e = LogEntry.pickedUp pi := (List.cons.inj hlog).1.symm
      rw [he] at heq
      exact absurd heq (by simp)
    | played cs₀ pl' loc₀ =>
      cases hwin : pl'.three_down.cards.isEmpty with
      | true =>
        rw [turnIteration_of_win g pi subs tl pl pl' cs₀ loc₀ hpl htt hwin]
          at h
        have hinj := Option.some.inj h
        have hflag : true = false := congrArg (fun x => x.2.2) hinj
        exact absurd hflag (by simp)
      | false =>
        obtain ⟨ds, deck', hdeal, -, -⟩ :=
          deal_length (min (3 - pl'.hand.length) g.deck.length) g.deck
            (Nat.min_le_right _ _)
        rw [turnIteration_of_play g pi subs tl pl pl' cs₀ loc₀ ds deck' hpl
          htt hwin hdeal] at h
        have hinj := Option.some.inj h
        have hg : (⟨deck', g.players.set pi (addToHand pl' ds),
            Discard.iadd g.discard cs₀,
            appendLog
              (LogEntry.played pi cs₀ loc₀ (Discard.iadd g.discard cs₀).isEmpty)
              g.turn_log⟩ : GameState) = g' :=
          congrArg Prod.fst hinj
        have htl : tl - 1 + (headCard cs₀).extra_turns = tl' :=
          congrArg (fun x => x.2.1) hinj
        rw [← hg] at hlog
        have he : e = LogEntry.played pi cs₀ loc₀
            (Discard.iadd g.discard cs₀).isEmpty :=
          (List.cons.inj hlog).1.symm
        rw [he] at heq
        injection heq with e1 e2 e3 e4
        rw [← htl, e2]

/-- Witness for C7, at the first play of `gSeq`: after the "C+2" is played
from a starting count of 1, two turns remain. -/
theorem extra_turns_stacking_witness :
    (2 : Nat) = 1 - 1 + (headCard [Card.Cp2]).extra_turns :=
  extra_turns_stacking.1 gSeq 0 [[0]] 1 gSeqMid 2
    (LogEntry.played 0 [Card.Cp2] Loc.hand true) []
    (by decide) (by decide) 0 [Card.Cp2] Loc.hand true rfl

end ThreeUpThreeDown
